/-
Verification of quaylib (src/quaylib/main.py): a one-way mirror of container
image tags from Docker Hub into Quay.

Shallow embedding conventions:
* Timestamps are modelled as `Int` (seconds on a single global timeline).
  Destination-registry timestamps, whose timezone handling matters, are
  modelled by `QTime`, which carries an optional timezone offset.
* Python `dict[str, T]` is modelled as an association list `List (String × T)`
  together with `dinsert` (assignment `d[k] = v`: overwrites in place,
  otherwise appends, exactly as Python dicts preserve insertion order) and
  `lookup` (`d[k]` / `k in d`).
* The HTTP servers are modelled as response scripts: `request` consumes a
  list of responses (one per issued request); the Quay tag endpoint is a
  function from page number to page.
* Fallible effects (subprocess exit status, HTTP error statuses) are
  modelled by explicit result values.
-/
import Mathlib

set_option linter.unusedVariables false

namespace Quaylib

/-! ## Association lists modelling Python dicts -/

/-- Lookup `d[k]` in an association list: first binding wins (keys are unique
in every map the code builds, since they come from Python dicts). -/
def lookup {α : Type} : List (String × α) → String → Option α
  | [], _ => none
  | (k₁, v₁) :: rest, k => if k₁ = k then some v₁ else lookup rest k

/-- Python dict assignment `d[k] = v`: overwrite the binding in place if the
key exists, otherwise append the new binding at the end. -/
def dinsert {α : Type} : List (String × α) → String → α → List (String × α)
  | [], k, v => [(k, v)]
  | (k₁, v₁) :: rest, k, v =>
    if k₁ = k then (k₁, v) :: rest else (k₁, v₁) :: dinsert rest k v

/-- Left-biased choice on `Option`, used to state lookup laws. -/
def oor {α : Type} : Option α → Option α → Option α
  | some a, _ => some a
  | none, b => b

/-- Lookup of the last binding of `k` (later bindings win), used to state the
"later page overwrites earlier page" union. -/
def lookupLast {α : Type} (m : List (String × α)) (k : String) : Option α :=
  lookup m.reverse k

/-! ## Rate-limited HTTP client (`DockerClient.request`)

```python
r = await super().request(*args, **kwargs)
if r.status_code != 429:  # Too Many Requests
    return r
await asyncio.sleep(int(r.headers["Retry-After"]) - time.time())
return await self.request(*args, **kwargs)
```

The underlying transport is modelled as a finite script of responses, one per
issued request; `retryAfter` models the `Retry-After` header (read by the code
only on a 429). `request now script` returns the response handed back to the
caller together with the list of arguments passed to `asyncio.sleep`, or
`none` when the script is exhausted while still retrying. The clock advances
by `max 0 d` across `asyncio.sleep d` (a non-positive sleep returns
immediately). -/

structure Response where
  status : Nat
  retryAfter : Int
  payload : String
  deriving DecidableEq, Repr

def request : Int → List Response → Option (Response × List Int)
  | _, [] => none
  | now, r :: rest =>
    if r.status ≠ 429 then
      some (r, [])
    else
      match request (now + max 0 (r.retryAfter - now)) rest with
      | none => none
      | some (res, waits) => some (res, (r.retryAfter - now) :: waits)

/-- Total real time spent sleeping, given the arguments passed to
`asyncio.sleep` (a non-positive argument sleeps for zero time). -/
def elapsed (waits : List Int) : Int :=
  (waits.map (fun d => max 0 d)).sum

/-! ## Ensure destination repository metadata (`ensure_quay_repo`)

The decision structure of the function after the description has been
composed: `GET repository/lib/{repo}` either yields the stored description or
fails with an HTTP status; on 404 the repository is created (POST) with the
composed description, on any other error status the error propagates, and on
success the description is updated (PUT) only when it differs. -/

/-- Outcome of `quay.get(f"repository/lib/{repo}")` followed by
`raise_for_status()`: the stored description, or the HTTP error status. -/
inductive FetchResult where
  | ok (stored : String)
  | err (status : Nat)
  deriving DecidableEq, Repr

/-- The write (if any) that `ensure_quay_repo` performs on the destination. -/
inductive EnsureAction where
  | create (description : String)
  | update (description : String)
  | noop
  deriving DecidableEq, Repr

def ensure_quay_repo (fetch : FetchResult) (description : String) :
    Except Nat EnsureAction :=
  match fetch with
  | .err status =>
    if status ≠ 404 then .error status
    else .ok (.create description)
  | .ok stored =>
    if stored = description then .ok .noop
    else .ok (.update description)

/-! ## Source tag listing (`get_tags_docker`)

```python
tags = {}
url = f"namespaces/library/repositories/{repo}/tags?page_size=100"
while url:
    ...
    for result in j["results"]:
        tags[result["name"]] = datetime.fromisoformat(result["last_updated"])
    url = j["next"]
return tags
```

A finite cursor chain (each page carries the URL of the next, `null` at the
end) is represented by the list of its pages in chain order; the loop visits
exactly those pages. -/

/-- Insert all `(name, last_updated)` results of one page into the tag map,
in page order. -/
def insertAll {α : Type} (tags : List (String × α)) (page : List (String × α)) :
    List (String × α) :=
  page.foldl (fun t r => dinsert t r.1 r.2) tags

def get_tags_docker (pages : List (List (String × Int))) : List (String × Int) :=
  pages.foldl insertAll []

/-- Modelled from the spec: the union of all pages' items, where a tag name
occurring on a later page overwrites the timestamp recorded from an earlier
page — i.e. the last binding of the name in the concatenation of the pages. -/
def unionLastWins {α : Type} (pages : List (List (String × α))) (k : String) :
    Option α :=
  lookupLast pages.flatten k

/-! ## Destination tag listing (`get_tags_quay`)

```python
tags = {}
page = 1
while page:
    r = await quay.get(url=..., params={"page": page, "limit": 100,
                                        "onlyActiveTags": True})
    ...
    for tag in j["tags"]:
        d = email.utils.parsedate_to_datetime(tag["last_modified"])
        if d.tzinfo is None:
            d = d.replace(tzinfo=UTC)
        tags[tag["name"]] = d
    if j["has_additional"]:
        page += 1
    else:
        page = None
return tags
```

The endpoint is a function from page number to page. The loop is embedded
with explicit fuel (returning `none` on exhaustion) since the `while` runs as
long as `has_additional` holds; the model also records every request issued,
so that page numbering and query parameters can be stated. -/

/-- A parsed `last_modified` value: a point in time plus the timezone offset
`parsedate_to_datetime` produced, if any (`none` models `tzinfo is None`). -/
structure QTime where
  time : Int
  tz : Option Int
  deriving DecidableEq, Repr

/-- The `if d.tzinfo is None: d = d.replace(tzinfo=UTC)` normalisation
(UTC is offset `0`). -/
def normalizeTz (d : QTime) : QTime :=
  if d.tz.isNone then { time := d.time, tz := some 0 } else d

def normPair (r : String × QTime) : String × QTime := (r.1, normalizeTz r.2)

/-- One page of `GET repository/lib/{repo}/tag/`. -/
structure QuayPage where
  tags : List (String × QTime)
  has_additional : Bool

/-- The query parameters of one issued tag-listing request. -/
structure QuayReq where
  page : Nat
  limit : Nat
  onlyActiveTags : Bool
  deriving DecidableEq, Repr

/-- Insert all tags of one page into the map, normalising timezones. -/
def insertQuayPage (tags : List (String × QTime)) (p : List (String × QTime)) :
    List (String × QTime) :=
  p.foldl (fun t r => dinsert t r.1 (normalizeTz r.2)) tags

def get_tags_quay_go (server : Nat → QuayPage) :
    Nat → Nat → List (String × QTime) → List QuayReq →
    Option (List (String × QTime) × List QuayReq)
  | 0, _, _, _ => none
  | fuel + 1, page, tags, reqs =>
    let p := server page
    let tags' := insertQuayPage tags p.tags
    let reqs' := reqs ++ [⟨page, 100, true⟩]
    if p.has_additional then get_tags_quay_go server fuel (page + 1) tags' reqs'
    else some (tags', reqs')

def get_tags_quay (server : Nat → QuayPage) (fuel : Nat) :
    Option (List (String × QTime) × List QuayReq) :=
  get_tags_quay_go server fuel 1 [] []

/-- The pages the loop visits when `m` is the number of the last page: pages
`1, 2, ..., m` in order. -/
def quayPages (server : Nat → QuayPage) (m : Nat) :
    List (List (String × QTime)) :=
  (List.range' 1 m).map (fun i => (server i).tags)

/-- A two-page destination endpoint (page 1 signals more pages, page 2 does
not; one timestamp arrives without a timezone) used to exercise the
pagination loop on concrete data. -/
def twoPageServer : Nat → QuayPage := fun n =>
  if n = 1 then ⟨[("a", ⟨5, none⟩), ("b", ⟨6, some 3600⟩)], true⟩
  else ⟨[("a", ⟨7, none⟩)], false⟩

/-! ## Sync decision engine (`sync`)

```python
for tag, docker_modified in tags_docker.items():
    if tag in tags_quay and tags_quay[tag] >= docker_modified:
        continue
    subprocess.run(args=["skopeo", "sync", ...], check=True)
```

`copyOk tag` models the exit status of the `skopeo sync` subprocess for that
tag (`true` = exit zero); `check=True` raises on a non-zero exit, aborting
the loop. The result is the list of tags for which the copy tool was invoked,
in iteration order, together with `true` on success or `false` when a copy
failed (the propagated `CalledProcessError`). -/

/-- The skip condition `tag in tags_quay and tags_quay[tag] >= docker_modified`. -/
def inSync (tagsQuay : List (String × Int)) (tag : String) (modified : Int) :
    Bool :=
  match lookup tagsQuay tag with
  | some t => modified ≤ t
  | none => false

def sync (copyOk : String → Bool) (tagsQuay : List (String × Int)) :
    List (String × Int) → List String × Bool
  | [] => ([], true)
  | (tag, modified) :: rest =>
    if inSync tagsQuay tag modified then
      sync copyOk tagsQuay rest
    else if copyOk tag then
      let r := sync copyOk tagsQuay rest
      (tag :: r.1, r.2)
    else ([tag], false)

/-! ## Lookup laws for the dict model -/

theorem oor_none_right {α : Type} (a : Option α) : oor a none = a := by
  cases a <;> rfl

theorem oor_assoc {α : Type} (a b c : Option α) :
    oor (oor a b) c = oor a (oor b c) := by
  cases a <;> cases b <;> rfl

theorem lookup_append {α : Type} (l₁ l₂ : List (String × α)) (k : String) :
    lookup (l₁ ++ l₂) k = oor (lookup l₁ k) (lookup l₂ k) := by
  induction l₁ with
  | nil => rfl
  | cons p rest ih =>
    obtain ⟨k₁, v₁⟩ := p
    by_cases h : k₁ = k <;> simp [lookup, h, ih, oor]

theorem lookup_dinsert {α : Type} (m : List (String × α)) (k k' : String)
    (v : α) :
    lookup (dinsert m k v) k' = if k = k' then some v else lookup m k' := by
  induction m with
  | nil => rfl
  | cons p rest ih =>
    obtain ⟨k₁, v₁⟩ := p
    by_cases h1 : k₁ = k
    · subst h1
      by_cases h2 : k₁ = k' <;> simp [dinsert, lookup, h2]
    · by_cases h2 : k₁ = k'
      · subst h2
        have h3 : ¬ k = k₁ := fun h => h1 h.symm
        simp [dinsert, lookup, h1, h3]
      · simp [dinsert, lookup, h1, h2, ih]

theorem lookup_insertAll {α : Type} (page : List (String × α))
    (tags : List (String × α)) (k : String) :
    lookup (insertAll tags page) k = oor (lookupLast page k) (lookup tags k) := by
  induction page generalizing tags with
  | nil => rfl
  | cons r rs ih =>
    show lookup (insertAll (dinsert tags r.1 r.2) rs) k = _
    rw [ih]
    simp only [lookupLast, List.reverse_cons, lookup_append]
    rw [oor_assoc]
    congr 1
    rw [lookup_dinsert]
    by_cases h : r.1 = k <;> simp [lookup, h, oor]

theorem lookup_foldl_insertAll {α : Type} (pages : List (List (String × α)))
    (tags : List (String × α)) (k : String) :
    lookup (pages.foldl insertAll tags) k =
      oor (lookupLast pages.flatten k) (lookup tags k) := by
  induction pages generalizing tags with
  | nil => rfl
  | cons p ps ih =>
    show lookup (ps.foldl insertAll (insertAll tags p)) k = _
    rw [ih, lookup_insertAll]
    simp only [lookupLast, List.flatten_cons, List.reverse_append, lookup_append]
    rw [oor_assoc]

/-- C5: for every finite chain of source-registry pages (listed in chain
order, the chain ending where `next` is null), the tag map built by
`get_tags_docker` agrees, at every tag name, with the union of all pages'
items in which a name occurring on a later page overwrites the timestamp
recorded from an earlier page. -/
theorem c5_source_pagination_union (pages : List (List (String × Int)))
    (k : String) :
    lookup (get_tags_docker pages) k = unionLastWins pages k := by
  rw [get_tags_docker, lookup_foldl_insertAll]
  show oor (lookupLast pages.flatten k) none = _
  rw [oor_none_right]
  rfl

/-! ## Sync decision engine: staleness, idempotence, additivity, failure -/

/-- When every copy succeeds, the engine copies exactly the source tags whose
skip condition fails, in iteration order. -/
theorem sync_all_ok (tagsQuay : List (String × Int)) :
    ∀ tagsDocker : List (String × Int),
      sync (fun _ => true) tagsQuay tagsDocker =
        ((tagsDocker.filter (fun p => !(inSync tagsQuay p.1 p.2))).map Prod.fst,
         true)
  | [] => rfl
  | (tag, modified) :: rest => by
    by_cases h : inSync tagsQuay tag modified
    · simp [sync, h, sync_all_ok tagsQuay rest, List.filter_cons]
    · simp [sync, h, sync_all_ok tagsQuay rest, List.filter_cons]

/-- In a map with pairwise-distinct keys (the image of a Python dict), a key
determines its value. -/
theorem mem_value_unique {α : Type} :
    ∀ (d : List (String × α)), (d.map Prod.fst).Nodup →
      ∀ (tag : String) (t t' : α), (tag, t) ∈ d → (tag, t') ∈ d → t = t'
  | [], _, _, _, _, h, _ => absurd h (List.not_mem_nil _)
  | p :: rest, hnodup, tag, t, t', h, h' => by
    obtain ⟨hk, hrest⟩ := List.nodup_cons.mp hnodup
    rcases List.mem_cons.mp h with h1 | h1
    · rcases List.mem_cons.mp h' with h2 | h2
      · exact congrArg Prod.snd (h1.trans h2.symm)
      · rw [← h1] at hk
        exact absurd (List.mem_map_of_mem Prod.fst h2) hk
    · rcases List.mem_cons.mp h' with h2 | h2
      · rw [← h2] at hk
        exact absurd (List.mem_map_of_mem Prod.fst h1) hk
      · exact mem_value_unique rest hrest tag t t' h1 h2

/-- The Boolean skip test, read as the staleness predicate of the spec. -/
theorem not_inSync_iff (tagsQuay : List (String × Int)) (tag : String)
    (t : Int) :
    inSync tagsQuay tag t = false ↔
      (lookup tagsQuay tag = none ∨
       ∃ q, lookup tagsQuay tag = some q ∧ q < t) := by
  unfold inSync
  cases hl : lookup tagsQuay tag with
  | none => simp
  | some q =>
    constructor
    · intro h
      right
      refine ⟨q, rfl, ?_⟩
      simpa using h
    · rintro (h | ⟨q', hq', hlt⟩)
      · cases h
      · cases hq'
        simpa using hlt

/-- C1: for every tag in the source tag map, the engine invokes the copy tool
for that tag if and only if the tag is absent from the destination tag map or
its destination timestamp is strictly older than its source timestamp; when
the destination timestamp is equal or newer the tag is skipped. -/
theorem c1_staleness_rule (tagsDocker tagsQuay : List (String × Int))
    (tag : String) (t : Int)
    (hnodup : (tagsDocker.map Prod.fst).Nodup)
    (hmem : (tag, t) ∈ tagsDocker) :
    tag ∈ (sync (fun _ => true) tagsQuay tagsDocker).1 ↔
      (lookup tagsQuay tag = none ∨
       ∃ q, lookup tagsQuay tag = some q ∧ q < t) := by
  rw [sync_all_ok]
  simp only [List.mem_map, List.mem_filter]
  constructor
  · rintro ⟨⟨tag', t'⟩, ⟨hmem', hstale⟩, rfl⟩
    have ht : t' = t := mem_value_unique tagsDocker hnodup _ _ _ hmem' hmem
    subst ht
    exact (not_inSync_iff tagsQuay tag' t').mp (by simpa using hstale)
  · intro h
    refine ⟨(tag, t), ⟨hmem, ?_⟩, rfl⟩
    have hf : inSync tagsQuay tag t = false := (not_inSync_iff tagsQuay tag t).mpr h
    simp [hf]

/-- Witness for C1 at the spec's end-to-end scenario: source has
`latest ↦ 100` and `1.0 ↦ 50`, destination has `1.0 ↦ 50`; `latest` is
copied and `1.0` is not. -/
theorem c1_staleness_rule_witness :
    ("latest" ∈ (sync (fun _ => true) [("1.0", (50 : Int))]
        [("latest", 100), ("1.0", 50)]).1 ↔
      (lookup [("1.0", (50 : Int))] "latest" = none ∨
       ∃ q, lookup [("1.0", (50 : Int))] "latest" = some q ∧ q < 100)) ∧
    ("1.0" ∈ (sync (fun _ => true) [("1.0", (50 : Int))]
        [("latest", 100), ("1.0", 50)]).1 ↔
      (lookup [("1.0", (50 : Int))] "1.0" = none ∨
       ∃ q, lookup [("1.0", (50 : Int))] "1.0" = some q ∧ q < 50)) :=
  ⟨c1_staleness_rule [("latest", 100), ("1.0", 50)] [("1.0", 50)] "latest" 100
      (by decide) (by simp),
   c1_staleness_rule [("latest", 100), ("1.0", 50)] [("1.0", 50)] "1.0" 50
      (by decide) (by simp)⟩

/-- C7: if the destination already maps every source tag to a timestamp at
least as new as its source timestamp (the state after a successful run with
no upstream change), the engine performs zero copy invocations, whatever the
copy tool would report. -/
theorem c7_second_run_idempotent (copyOk : String → Bool)
    (tagsDocker tagsQuay : List (String × Int))
    (h : ∀ p ∈ tagsDocker,
      ∃ q, lookup tagsQuay (Prod.fst p) = some q ∧ Prod.snd p ≤ q) :
    sync copyOk tagsQuay tagsDocker = ([], true) := by
  induction tagsDocker with
  | nil => rfl
  | cons p rest ih =>
    obtain ⟨tag, modified⟩ := p
    obtain ⟨q, hq, hle⟩ := h (tag, modified) (List.mem_cons_self _ _)
    have hin : inSync tagsQuay tag modified = true := by
      unfold inSync
      rw [hq]
      simpa using hle
    simp only [sync, hin, if_true]
    exact ih (fun p hp => h p (List.mem_cons_of_mem _ hp))

/-- Witness for C7: destination holds both source tags with equal or newer
timestamps, so a second run copies nothing. -/
theorem c7_second_run_idempotent_witness :
    sync (fun _ => true) [("latest", 100), ("1.0", 50)]
      [("latest", 100), ("1.0", 40)] = ([], true) :=
  c7_second_run_idempotent (fun _ => true) [("latest", 100), ("1.0", 40)]
    [("latest", 100), ("1.0", 50)]
    (by
      intro p hp
      simp only [List.mem_cons, List.not_mem_nil, or_false] at hp
      rcases hp with rfl | rfl
      · exact ⟨100, by decide, by decide⟩
      · exact ⟨50, by decide, by decide⟩)

/-- C9: the engine only ever invokes the copy tool on tags drawn from the
source tag map (in source order): its invocation list is a sublist of the
source keys. It issues no delete — its entire observable output is this copy
list — so tags present only in the destination are never touched. -/
theorem c9_one_way_additive (copyOk : String → Bool)
    (tagsDocker tagsQuay : List (String × Int)) :
    List.Sublist (sync copyOk tagsQuay tagsDocker).1
      (tagsDocker.map Prod.fst) := by
  induction tagsDocker with
  | nil => simp [sync]
  | cons p rest ih =>
    obtain ⟨tag, modified⟩ := p
    by_cases hin : inSync tagsQuay tag modified
    · simp only [sync, hin, if_true]
      exact ih.cons _
    · by_cases hc : copyOk tag
      · simp only [sync, hin, if_false, hc, if_true, List.map_cons]
        exact ih.cons₂ _
      · simp only [sync, hin, if_false, hc, List.map_cons]
        simp

/-- C8: if the copy tool exits non-zero on a stale tag (and succeeded on all
earlier stale tags), the repository sync fails: the attempted copies are
exactly the stale tags before the failure plus the failing tag once, no
later tag is processed, and the failure is propagated. -/
theorem c8_copy_failure_aborts (copyOk : String → Bool)
    (tagsQuay pre post : List (String × Int)) (tag : String) (t : Int)
    (hpre : ∀ p ∈ pre, inSync tagsQuay (Prod.fst p) (Prod.snd p) = false →
      copyOk (Prod.fst p) = true)
    (hstale : inSync tagsQuay tag t = false)
    (hfail : copyOk tag = false) :
    sync copyOk tagsQuay (pre ++ (tag, t) :: post) =
      ((pre.filter (fun p => !(inSync tagsQuay p.1 p.2))).map Prod.fst ++ [tag],
       false) := by
  induction pre with
  | nil =>
    simp only [List.nil_append, sync, hstale, Bool.false_eq_true, if_false,
      hfail, List.filter_nil, List.map_nil]
  | cons p rest ih =>
    obtain ⟨s, u⟩ := p
    have hrec := ih (fun p hp h => hpre p (List.mem_cons_of_mem _ hp) h)
    by_cases hin : inSync tagsQuay s u
    · simp only [List.cons_append, sync, hin, if_true, hrec, List.filter_cons]
      simp only [hin, Bool.not_true, List.filter_cons]
      exact hrec
    · have hc : copyOk s = true :=
        hpre (s, u) (List.mem_cons_self _ _) (by simp at hin; exact hin)
      simp only [List.cons_append, sync, hin, if_false, hc, if_true, hrec,
        List.filter_cons]
      simp only [hin, Bool.not_eq_true', List.filter_cons]
      simp [hrec]

/-- Witness for C8: the copy of stale tag `b` fails after the stale tag `a`
was copied; `a` and `b` are attempted, the fresh tag `c0` and the later tag
`d` are not, and the run reports failure. -/
theorem c8_copy_failure_aborts_witness :
    sync (fun s => s != "b") [("c0", 9)]
      ([("a", 1), ("c0", 2)] ++ ("b", 3) :: [("d", 4)]) =
      (([("a", 1), ("c0", 2)].filter
          (fun p => !(inSync [("c0", 9)] p.1 p.2))).map Prod.fst ++ ["b"],
       false) :=
  c8_copy_failure_aborts (fun s => s != "b") [("c0", 9)]
    [("a", 1), ("c0", 2)] [("d", 4)] "b" 3
    (by decide) (by decide) (by decide)

/-! ## Rate-limited client: retry behaviour -/

/-- C3: the client returns the first scripted response whose status is not
429 unmodified (whatever that status is), after one wait-and-reissue cycle
per preceding 429: n consecutive 429s produce exactly n waits. -/
theorem c3_first_non_429_returned (now : Int) (script : List Response)
    (r : Response)
    (h : script.find? (fun x => x.status != 429) = some r) :
    ∃ waits, request now script = some (r, waits) ∧
      waits.length =
        (script.takeWhile (fun x => x.status == 429)).length := by
  induction script generalizing now with
  | nil => cases h
  | cons r₀ rest ih =>
    by_cases h429 : r₀.status = 429
    · rw [List.find?_cons_of_neg _ (by simp [h429])] at h
      obtain ⟨w, hw, hlen⟩ := ih (now + max 0 (r₀.retryAfter - now)) h
      refine ⟨(r₀.retryAfter - now) :: w, ?_, ?_⟩
      · simp only [request, h429, ne_eq, not_true_eq_false, if_false, hw]
      · simp [List.takeWhile_cons, h429, hlen]
    · rw [List.find?_cons_of_pos _ (by simp [h429])] at h
      cases h
      refine ⟨[], ?_, ?_⟩
      · simp [request, h429]
      · simp [List.takeWhile_cons, h429]

/-- Witness for C3: two consecutive 429s then a 500; the 500 is returned
unmodified to the caller after exactly two waits. -/
theorem c3_first_non_429_returned_witness :
    ∃ waits,
      request 0 [⟨429, 7, "a"⟩, ⟨429, 9, "b"⟩, ⟨500, 0, "boom"⟩] =
        some (⟨500, 0, "boom"⟩, waits) ∧
      waits.length =
        (([⟨429, 7, "a"⟩, ⟨429, 9, "b"⟩, ⟨500, 0, "boom"⟩] :
            List Response).takeWhile (fun x => x.status == 429)).length :=
  c3_first_non_429_returned 0 [⟨429, 7, "a"⟩, ⟨429, 9, "b"⟩, ⟨500, 0, "boom"⟩]
    ⟨500, 0, "boom"⟩ (by decide)

/-- C2 counterexample: with the clock at 100, a 429 carrying
`Retry-After: 2` followed by a 200 makes the client sleep for
`2 - 100 = -98` seconds — i.e. zero real delay, not approximately two
seconds (the code subtracts the current Unix time from the header value).
The 200 payload is still what the caller receives. -/
theorem c2_counterexample_no_two_second_wait :
    request 100 [⟨429, 2, "limited"⟩, ⟨200, 0, "payload"⟩] =
      some (⟨200, 0, "payload"⟩, [-98]) ∧
    elapsed [-98] ≠ 2 := by
  refine ⟨rfl, by decide⟩

/-- C2 (amended): the `Retry-After` value is an absolute Unix timestamp;
when the server scripts one 429 whose `Retry-After` is two seconds after the
current time, followed by a 200, the client sleeps exactly 2 seconds and
hands the caller the 200 response, never surfacing the 429. -/
theorem c2_retry_after_timestamp_wait (now ra : Int) (p q : String) :
    request now [⟨429, now + 2, p⟩, ⟨200, ra, q⟩] =
      some (⟨200, ra, q⟩, [2]) ∧
    elapsed [2] = 2 := by
  have h2 : now + 2 - now = 2 := by omega
  refine ⟨?_, by decide⟩
  simp [request, h2]

/-- C10: on a 429 the sleep argument is exactly the `Retry-After` value
minus the current time; whenever that difference is zero or negative the
sleep consumes no time and the request is reissued immediately at the
unchanged clock, with no error raised (the reissue's outcome is passed
through as is). -/
theorem c10_nonpositive_wait_immediate (now : Int) (r : Response)
    (rest : List Response) (h429 : r.status = 429) :
    (request now (r :: rest) =
      (request (now + max 0 (r.retryAfter - now)) rest).map
        (fun pr => (pr.1, (r.retryAfter - now) :: pr.2))) ∧
    (r.retryAfter ≤ now →
      request now (r :: rest) =
        (request now rest).map
          (fun pr => (pr.1, (r.retryAfter - now) :: pr.2)) ∧
      max 0 (r.retryAfter - now) = 0 ∧
      ∀ w : List Int, elapsed ((r.retryAfter - now) :: w) = elapsed w) := by
  have hfirst : request now (r :: rest) =
      (request (now + max 0 (r.retryAfter - now)) rest).map
        (fun pr => (pr.1, (r.retryAfter - now) :: pr.2)) := by
    cases hres : request (now + max 0 (r.retryAfter - now)) rest with
    | none => simp [request, h429, hres]
    | some pr =>
      obtain ⟨res, waits⟩ := pr
      simp [request, h429, hres]
  have hmax : r.retryAfter ≤ now → max 0 (r.retryAfter - now) = 0 := by
    intro hle
    omega
  refine ⟨hfirst, fun hle => ⟨?_, hmax hle, fun w => ?_⟩⟩
  · rw [hfirst, hmax hle, add_zero]
  · simp [elapsed, hmax hle]

/-- Witness for C10: clock at 10, `Retry-After: 5` lies in the past; the
sleep is `-5`, consuming no time, and the following 200 is returned. -/
theorem c10_nonpositive_wait_immediate_witness :
    (request 10 [⟨429, 5, "limited"⟩, ⟨200, 0, "payload"⟩] =
      (request (10 + max 0 ((5 : Int) - 10)) [⟨200, 0, "payload"⟩]).map
        (fun pr => (pr.1, ((5 : Int) - 10) :: pr.2))) ∧
    ((5 : Int) ≤ 10 →
      request 10 [⟨429, 5, "limited"⟩, ⟨200, 0, "payload"⟩] =
        (request 10 [⟨200, 0, "payload"⟩]).map
          (fun pr => (pr.1, ((5 : Int) - 10) :: pr.2)) ∧
      max 0 ((5 : Int) - 10) = 0 ∧
      ∀ w : List Int, elapsed (((5 : Int) - 10) :: w) = elapsed w) :=
  c10_nonpositive_wait_immediate 10 ⟨429, 5, "limited"⟩ [⟨200, 0, "payload"⟩]
    rfl

/-! ## Ensure destination repository metadata -/

/-- C4: `ensure_quay_repo` resolves to exactly one of three outcomes — a 404
on the fetch yields a create carrying the composed description; a successful
fetch with a stored description equal to the composed one yields no write; a
successful fetch with a differing description yields an update (PUT) to the
composed description — and any non-404 fetch failure propagates that error
with no create or update performed (an error outcome is only ever a non-404
status). -/
theorem c4_ensure_repo_trichotomy (fetch : FetchResult) (desc : String) :
    (fetch = .err 404 → ensure_quay_repo fetch desc = .ok (.create desc)) ∧
    (∀ stored, fetch = .ok stored → stored = desc →
      ensure_quay_repo fetch desc = .ok .noop) ∧
    (∀ stored, fetch = .ok stored → stored ≠ desc →
      ensure_quay_repo fetch desc = .ok (.update desc)) ∧
    (∀ s, fetch = .err s → s ≠ 404 →
      ensure_quay_repo fetch desc = .error s) ∧
    (∀ s, ensure_quay_repo fetch desc = .error s → s ≠ 404) := by
  refine ⟨?_, ?_, ?_, ?_, ?_⟩
  · rintro rfl
    simp [ensure_quay_repo]
  · rintro stored rfl rfl
    simp [ensure_quay_repo]
  · rintro stored rfl hne
    simp [ensure_quay_repo, hne]
  · rintro s rfl hne
    simp [ensure_quay_repo, hne]
  · intro s hs
    cases fetch with
    | ok stored =>
      by_cases h : stored = desc <;> simp [ensure_quay_repo, h] at hs
    | err status =>
      by_cases h : status = 404
      · simp [ensure_quay_repo, h] at hs
      · simp [ensure_quay_repo, h] at hs
        rw [← hs.symm] at h
        exact h

/-- Witness for C4: all four outcomes at concrete inputs — create on 404,
no-op on matching description, update on differing description, propagated
error on a 500 fetch failure. -/
theorem c4_ensure_repo_trichotomy_witness :
    ensure_quay_repo (.err 404) "d" = .ok (.create "d") ∧
    ensure_quay_repo (.ok "d") "d" = .ok .noop ∧
    ensure_quay_repo (.ok "old") "d" = .ok (.update "d") ∧
    ensure_quay_repo (.err 500) "d" = .error 500 :=
  ⟨(c4_ensure_repo_trichotomy (.err 404) "d").1 rfl,
   (c4_ensure_repo_trichotomy (.ok "d") "d").2.1 "d" rfl rfl,
   (c4_ensure_repo_trichotomy (.ok "old") "d").2.2.1 "old" rfl (by decide),
   (c4_ensure_repo_trichotomy (.err 500) "d").2.2.2.1 500 rfl (by decide)⟩

/-! ## Destination tag listing: pagination and timezone hygiene -/

theorem normalizeTz_isSome (d : QTime) : (normalizeTz d).tz.isSome = true := by
  unfold normalizeTz
  cases h : d.tz <;> simp [h]

theorem insertQuayPage_eq (tags : List (String × QTime))
    (p : List (String × QTime)) :
    insertQuayPage tags p = insertAll tags (p.map normPair) := by
  rw [insertQuayPage, insertAll, List.foldl_map]
  rfl

theorem foldl_insertQuayPage_eq (pages : List (List (String × QTime)))
    (tags : List (String × QTime)) :
    pages.foldl insertQuayPage tags =
      (pages.map (List.map normPair)).foldl insertAll tags := by
  rw [List.foldl_map]
  congr 1
  funext t p
  exact insertQuayPage_eq t p

theorem dinsert_values {α : Type} (P : α → Prop) :
    ∀ (m : List (String × α)) (k : String) (v : α),
      (∀ p ∈ m, P (Prod.snd p)) → P v →
      ∀ p ∈ dinsert m k v, P (Prod.snd p)
  | [], k, v, hm, hv, p, hp => by
    simp only [dinsert, List.mem_singleton] at hp
    rw [hp]
    exact hv
  | (k₁, v₁) :: rest, k, v, hm, hv, p, hp => by
    by_cases h : k₁ = k
    · simp only [dinsert, h, if_true] at hp
      rcases List.mem_cons.mp hp with rfl | hp'
      · exact hv
      · exact hm p (List.mem_cons_of_mem _ hp')
    · simp only [dinsert, h, if_false] at hp
      rcases List.mem_cons.mp hp with rfl | hp'
      · exact hm (k₁, v₁) (List.mem_cons_self _ _)
      · exact dinsert_values P rest k v
          (fun q hq => hm q (List.mem_cons_of_mem _ hq)) hv p hp'

theorem insertAll_values {α : Type} (P : α → Prop) :
    ∀ (page : List (String × α)) (tags : List (String × α)),
      (∀ p ∈ tags, P (Prod.snd p)) → (∀ p ∈ page, P (Prod.snd p)) →
      ∀ p ∈ insertAll tags page, P (Prod.snd p)
  | [], tags, htags, _, p, hp => htags p hp
  | r :: rs, tags, htags, hpage, p, hp =>
    insertAll_values P rs (dinsert tags r.1 r.2)
      (dinsert_values P tags r.1 r.2 htags (hpage r (List.mem_cons_self _ _)))
      (fun q hq => hpage q (List.mem_cons_of_mem _ hq)) p hp

theorem foldl_insertAll_values {α : Type} (P : α → Prop) :
    ∀ (pages : List (List (String × α))) (tags : List (String × α)),
      (∀ p ∈ tags, P (Prod.snd p)) →
      (∀ page ∈ pages, ∀ p ∈ page, P (Prod.snd p)) →
      ∀ p ∈ pages.foldl insertAll tags, P (Prod.snd p)
  | [], tags, htags, _, p, hp => htags p hp
  | pg :: pgs, tags, htags, hpages, p, hp =>
    foldl_insertAll_values P pgs (insertAll tags pg)
      (insertAll_values P pg tags htags (hpages pg (List.mem_cons_self _ _)))
      (fun page hpg => hpages page (List.mem_cons_of_mem _ hpg)) p hp

/-- Unrolling of the destination page walk: starting from page number `page`,
when `m ≥ page` is the first page whose `has_additional` flag is false and
the fuel covers the remaining pages, the loop visits exactly pages
`page, page+1, ..., m`, issuing one request per page with `limit = 100` and
`onlyActiveTags = true`, and folds every visited page into the tag map. -/
theorem get_tags_quay_go_spec (server : Nat → QuayPage) (m : Nat)
    (hm : (server m).has_additional = false) :
    ∀ (fuel page : Nat) (tags : List (String × QTime)) (reqs : List QuayReq),
      (∀ i, page ≤ i → i < m → (server i).has_additional = true) →
      page ≤ m → m + 1 - page ≤ fuel →
      get_tags_quay_go server fuel page tags reqs =
        some
          (((List.range' page (m + 1 - page)).map
              (fun i => (server i).tags)).foldl insertQuayPage tags,
           reqs ++ (List.range' page (m + 1 - page)).map
              (fun i => (⟨i, 100, true⟩ : QuayReq)))
  | 0, page, tags, reqs, htrue, hpm, hfuel => ((by omega : False)).elim
  | fuel + 1, page, tags, reqs, htrue, hpm, hfuel => by
    by_cases hpage : page = m
    · subst hpage
      have h1 : page + 1 - page = 1 := by omega
      rw [h1]
      simp [get_tags_quay_go, hm, List.range'_one]
    · have hlt : page < m := lt_of_le_of_ne hpm hpage
      have hflag : (server page).has_additional = true :=
        htrue page (le_refl _) hlt
      have hsub : m + 1 - page = (m - page) + 1 := by omega
      have hsub2 : m + 1 - (page + 1) = m - page := by omega
      have ihres := get_tags_quay_go_spec server m hm fuel (page + 1)
        (insertQuayPage tags (server page).tags) (reqs ++ [⟨page, 100, true⟩])
        (fun i hi1 hi2 => htrue i (by omega) hi2) (by omega) (by omega)
      rw [hsub2] at ihres
      simp only [get_tags_quay_go, hflag, if_true]
      rw [ihres, hsub, List.range'_succ]
      simp only [List.map_cons, List.foldl_cons, List.append_assoc,
        List.singleton_append]

/-- C6: when page `m ≥ 1` is the first page whose `has_additional` flag is
false (and the fuel bound covers the walk), `get_tags_quay` issues exactly
the requests for pages `1, 2, ..., m`, each with `limit = 100` and
`onlyActiveTags = true`, stopping right after the first false flag; the
returned map agrees at every tag name with the later-page-overwrites union
of all pages' tags with timezone normalisation applied; and every timestamp
in the returned map carries a timezone. -/
theorem c6_destination_pagination (server : Nat → QuayPage) (fuel m : Nat)
    (h1 : 1 ≤ m) (hfuel : m ≤ fuel)
    (hm : (server m).has_additional = false)
    (hbefore : ∀ i, 1 ≤ i → i < m → (server i).has_additional = true) :
    ∃ tags,
      get_tags_quay server fuel =
        some (tags,
          (List.range' 1 m).map (fun i => (⟨i, 100, true⟩ : QuayReq))) ∧
      (∀ k, lookup tags k =
        unionLastWins ((quayPages server m).map (List.map normPair)) k) ∧
      (∀ p ∈ tags, (Prod.snd p).tz.isSome = true) := by
  have hspec := get_tags_quay_go_spec server m hm fuel 1 [] [] hbefore h1
    (by omega)
  have hm1 : m + 1 - 1 = m := by omega
  rw [hm1] at hspec
  refine ⟨(quayPages server m).foldl insertQuayPage [], ?_, ?_, ?_⟩
  · rw [get_tags_quay, hspec]
    simp [quayPages]
  · intro k
    rw [foldl_insertQuayPage_eq, lookup_foldl_insertAll]
    show oor _ none = _
    rw [oor_none_right]
    rfl
  · intro p hp
    rw [foldl_insertQuayPage_eq] at hp
    refine foldl_insertAll_values (fun d => d.tz.isSome = true) _ []
      (by simp) ?_ p hp
    intro page hpage q hq
    obtain ⟨orig, horig, rfl⟩ := List.mem_map.mp hpage
    obtain ⟨r, hr, rfl⟩ := List.mem_map.mp hq
    exact normalizeTz_isSome r.2

/-- Witness for C6 on the two-page endpoint: the walk requests pages 1 and 2
with `limit = 100` and `onlyActiveTags = true` and stops, the map is the
normalised union of the two pages, and every returned timestamp carries a
timezone. -/
theorem c6_destination_pagination_witness :
    ∃ tags,
      get_tags_quay twoPageServer 2 =
        some (tags,
          (List.range' 1 2).map (fun i => (⟨i, 100, true⟩ : QuayReq))) ∧
      (∀ k, lookup tags k =
        unionLastWins ((quayPages twoPageServer 2).map (List.map normPair)) k) ∧
      (∀ p ∈ tags, (Prod.snd p).tz.isSome = true) :=
  c6_destination_pagination twoPageServer 2 2 (by decide) (by decide)
    (by decide)
    (fun i hi1 hi2 => by
      have hi : i = 1 := by omega
      subst hi
      decide)

end Quaylib
